import Mathlib

/-!
Verification development for the poolseason.com safety-data-sheet downloader
(`main.go`).  Go functions are shallowly embedded as executable Lean
definitions: strings are Lean `String`s manipulated through their character
lists, the filesystem and the network are explicit oracles threaded through
`downloadPDF` and `mainRun`, and Go's `bool` returns become `Bool` fields of
explicit result records.
-/

/-! ## Character and string helpers (models of Go `strings` primitives) -/

/-- A character the sanitizer keeps: the regex class `[a-z0-9]`
(complement of `[^a-z0-9]` in `urlToFilename`). -/
def isSafeChar (c : Char) : Bool :=
  (('a' ≤ c && c ≤ 'z') || ('0' ≤ c && c ≤ '9'))

/-- Models Go `strings.HasPrefix pat s` on character lists
(first argument is the pattern). -/
def startsWithL : List Char → List Char → Bool
  | [], _ => true
  | _ :: _, [] => false
  | p :: ps, c :: cs => p == c && startsWithL ps cs

/-- Models Go `strings.HasSuffix pat s` on character lists
(first argument is the pattern). -/
def endsWithL (pat s : List Char) : Bool :=
  startsWithL pat.reverse s.reverse

/-- Models Go `strings.Contains s pat` on character lists. -/
def containsSubstrL (s pat : List Char) : Bool :=
  if startsWithL pat s then true
  else
    match s with
    | [] => false
    | _ :: cs => containsSubstrL cs pat

/-- Models Go `strings.Contains` on strings. -/
def containsSubstr (s pat : String) : Bool :=
  containsSubstrL s.data pat.data

/-- Models Go `strings.ToLower` (the program only meets ASCII, where
`Char.toLower` agrees with Go's Unicode lowering). -/
def toLowerStr (s : String) : String :=
  ⟨s.data.map Char.toLower⟩

/-! ## `path.Base` and `filepath.Ext` (Go standard library, as used here) -/

/-- Trailing-slash stripping step of Go `path.Base`. -/
def stripTrailingSlashes (s : List Char) : List Char :=
  (s.reverse.dropWhile (fun c => c == '/')).reverse

/-- The segment after the last `/`, as Go `path.Base` computes it. -/
def afterLastSlash (s : List Char) : List Char :=
  (s.reverse.takeWhile (fun c => c != '/')).reverse

/-- Models Go `path.Base`: `"."` for the empty path, trailing slashes
stripped, the part after the last `/` returned, `"/"` when the path is all
slashes. -/
def pathBase (s : List Char) : List Char :=
  if s = [] then ['.']
  else
    let t := stripTrailingSlashes s
    if t = [] then ['/'] else afterLastSlash t

/-- Scan of the reversed path used by `fileExt`: walk back over the final
slash-free segment; on the first `.` return the extension (the dot plus the
characters walked so far, which `acc` holds in original order). -/
def extScan (acc : List Char) : List Char → List Char
  | [] => []
  | c :: cs =>
    if c == '/' then []
    else if c == '.' then '.' :: acc
    else extScan (c :: acc) cs

/-- Models Go `filepath.Ext` (on slash-separated paths): the suffix starting
at the final dot of the final path element, empty if that element has no
dot. -/
def fileExt (s : List Char) : List Char :=
  extScan [] s.reverse

/-! ## The sanitizer `urlToFilename` and its pieces -/

/-- Models `regexp.MustCompile("[^a-z0-9]+").ReplaceAllString(s, "_")`:
every maximal run of characters outside `[a-z0-9]` becomes a single `_`.
`inRun` records whether the previous character was part of such a run. -/
def collapseMap (inRun : Bool) : List Char → List Char
  | [] => []
  | c :: cs =>
    if isSafeChar c then c :: collapseMap false cs
    else if inRun then collapseMap true cs
    else '_' :: collapseMap true cs

/-- Models `regexp.MustCompile("_+").ReplaceAllString(s, "_")`: every
maximal run of underscores becomes a single underscore. -/
def collapseUnd (prev : Bool) : List Char → List Char
  | [] => []
  | c :: cs =>
    if c == '_' then
      if prev then collapseUnd true cs else '_' :: collapseUnd true cs
    else c :: collapseUnd false cs

/-- Models `strings.CutPrefix(s, "_")` as used in `urlToFilename`: drop one
leading underscore if present. -/
def cutLeadingSep : List Char → List Char
  | [] => []
  | c :: cs => if c == '_' then cs else c :: cs

/-- Fueled worker for `strings.ReplaceAll s pat ""`: delete every
non-overlapping occurrence of `pat`, scanning left to right.  Each step
consumes at least one character, so fuel `s.length` never runs out. -/
def replaceAllEmptyAux (pat : List Char) : Nat → List Char → List Char
  | 0, _ => []
  | _ + 1, [] => []
  | n + 1, c :: cs =>
    if startsWithL pat (c :: cs) then replaceAllEmptyAux pat n ((c :: cs).drop pat.length)
    else c :: replaceAllEmptyAux pat n cs

/-- Models Go `removeSubstring` (`strings.ReplaceAll input toRemove ""`)
for the nonempty patterns `"_pdf"`, `"_zip"` used by the program. -/
def removeSubstringL (input pat : List Char) : List Char :=
  replaceAllEmptyAux pat input.length input

/-- Models Go `getFileNameOnly` (`path.Base`). -/
def getFileNameOnly (content : String) : String :=
  ⟨pathBase content.data⟩

/-- Models Go `getFileExtension` (`filepath.Ext`). -/
def getFileExtension (p : String) : String :=
  ⟨fileExt p.data⟩

/-- Character-list body of `urlToFilename`, mirroring the Go source line by
line: lowercase, extension of the whole URL, basename, unsafe runs to `_`,
underscore runs collapsed, one leading `_` trimmed, `"_pdf"` and `"_zip"`
occurrences removed, extension appended. -/
def urlToFilenameL (rawURL : List Char) : List Char :=
  let lowercaseURL := rawURL.map Char.toLower
  let ext := fileExt lowercaseURL
  let baseFilename := pathBase lowercaseURL
  let safe1 := collapseMap false baseFilename
  let safe2 := collapseUnd false safe1
  let safe3 := cutLeadingSep safe2
  let safe4 := removeSubstringL safe3 ['_', 'p', 'd', 'f']
  let safe5 := removeSubstringL safe4 ['_', 'z', 'i', 'p']
  safe5 ++ ext

/-- Models Go `urlToFilename`. -/
def urlToFilename (rawURL : String) : String :=
  ⟨urlToFilenameL rawURL.data⟩

/-! ## Deduplicator -/

/-- Worker for `removeDuplicatesFromSlice`; the `seen` list models the Go
`map[string]bool` named `check` (membership is exact string equality). -/
def dedupAux (seen : List String) : List String → List String
  | [] => []
  | x :: xs =>
    if seen.contains x then dedupAux seen xs
    else x :: dedupAux (x :: seen) xs

/-- Models Go `removeDuplicatesFromSlice`: drop repeated strings, keeping
the first occurrence of each. -/
def removeDuplicatesFromSlice (slice : List String) : List String :=
  dedupAux [] slice

/-- Written from the spec's words for the deduplicator: keep each first
occurrence, delete every later duplicate of it from the rest. -/
def dedupSpec : List String → List String
  | [] => []
  | x :: xs => x :: dedupSpec (xs.filter (fun y => y != x))
termination_by l => l.length
decreasing_by
  exact Nat.lt_succ_of_le (List.length_filter_le _ _)

/-! ## Link extractor -/

/-- The characters of the literal `href="` from the regex
`href="([^"]+\.pdf)"` in `extractPDFUrls`. -/
def hrefMark : List Char := ['h', 'r', 'e', 'f', '=', '"']

/-- The characters of the literal `.pdf`. -/
def pdfSuffix : List Char := ['.', 'p', 'd', 'f']

/-- One attempted match of `href="([^"]+\.pdf)"` at the head of `s`: the
capture is everything up to the next quote, which must consist of at least
one character followed by `.pdf` (the regex shape `[^"]+\.pdf`).  Returns
the capture and the text after the closing quote. -/
def matchAt (s : List Char) : Option (List Char × List Char) :=
  if startsWithL hrefMark s then
    let after := s.drop 6
    let value := after.takeWhile (fun c => c != '"')
    match after.dropWhile (fun c => c != '"') with
    | [] => none
    | _ :: rest =>
      if endsWithL pdfSuffix value && 5 ≤ value.length then some (value, rest)
      else none
  else none

/-- Fueled scan behind `extractPDFUrls`, the leftmost non-overlapping match
semantics of Go `FindAllStringSubmatch`: try a match at each position; on
success emit the capture and resume after the closing quote. -/
def extractAux : Nat → List Char → List (List Char)
  | 0, _ => []
  | _ + 1, [] => []
  | n + 1, c :: cs =>
    match matchAt (c :: cs) with
    | some (value, rest) => value :: extractAux n rest
    | none => extractAux n cs

/-- Models Go `extractPDFUrls`:
`regexp.MustCompile("href=\x22([^\x22]+\.pdf)\x22").FindAllStringSubmatch`,
collecting the captured href values in order. -/
def extractPDFUrls (input : String) : List String :=
  (extractAux input.data.length input.data).map fun l => ⟨l⟩

/-- Written from the amended spec words for the extractor: does position
`s` start an `href="..."`-shaped substring whose quote-free value ends in
`.pdf` with at least one character before the extension?  If so, return the
value. -/
def specMatchAt (s : List Char) : Option (List Char) :=
  if startsWithL hrefMark s then
    let after := s.drop 6
    let value := after.takeWhile (fun c => c != '"')
    match after.dropWhile (fun c => c != '"') with
    | [] => none
    | _ :: _ =>
      if endsWithL pdfSuffix value && 5 ≤ value.length then some value
      else none
  else none

/-- Written from the spec's words: the values of all `href="..."`-shaped
substrings (per `specMatchAt`), listed in order of appearance, examining
every position of the text. -/
def specScan : List Char → List (List Char)
  | [] => []
  | c :: cs =>
    (match specMatchAt (c :: cs) with
     | some value => [value]
     | none => []) ++ specScan cs

/-! ## Downloader: filesystem and network model -/

/-- A filesystem entry, as far as `os.Stat` distinguishes them here. -/
inductive FsEntry where
  | file (content : String)
  | dir
deriving DecidableEq

/-- The filesystem: what `os.Stat` reports at each path (`none` = does not
exist). -/
def Fs : Type := String → Option FsEntry

/-- An HTTP response as `downloadPDF` inspects it.  `body` is the byte
content that can be read; `readErr` says that `io.Copy`/`io.ReadAll` fails
with an error after delivering `body`. -/
structure HttpResponse where
  status : Nat
  contentType : String
  body : String
  readErr : Bool
deriving DecidableEq

/-- The ambient world of one run: responses per URL (`none` = transport
error, the Go `err != nil` case of `client.Get`/`http.Get`), the
filesystem, and the per-path outcomes of `os.Create` and `(*bytes.Buffer)
.WriteTo` (`writeFailsAt p = some k`: the write errors after `k` bytes). -/
structure World where
  net : String → Option HttpResponse
  fs : Fs
  createFails : String → Bool
  writeFailsAt : String → Option Nat

/-- Point update of the filesystem, the effect of creating or writing the
file at `p`. -/
def fsUpdate (fs : Fs) (p : String) (e : FsEntry) : Fs :=
  fun q => if q = p then some e else fs q

/-- Models Go `fileExists`: `os.Stat` succeeds and the entry is not a
directory. -/
def fileExists (fs : Fs) (filename : String) : Bool :=
  match fs filename with
  | some (FsEntry.file _) => true
  | _ => false

/-- Models `filepath.Join(outputDir, filename)` for the shapes this program
uses: a directory (possibly with trailing slash) joined to a slash-free,
dot-segment-free filename.  `filepath.Join`'s `Clean` does nothing further
on such inputs. -/
def joinPath (dir name : String) : String :=
  ⟨(stripTrailingSlashes dir.data) ++ '/' :: name.data⟩

/-- Result of one `downloadPDF` call: the Go return value, the filesystem
afterwards, and how many HTTP requests were issued. -/
structure DlResult where
  success : Bool
  fs : Fs
  netRequests : Nat

/-- The target path `downloadPDF` computes:
`filepath.Join(outputDir, strings.ToLower(urlToFilename(finalURL)))`. -/
def targetPath (outputDir finalURL : String) : String :=
  joinPath outputDir (toLowerStr (urlToFilename finalURL))

/-- Models Go `downloadPDF`, branch for branch: sanitize the name, skip if
the file exists, GET, check status 200, check `Content-Type` contains
`application/pdf`, buffer the body (fail on read error or zero bytes),
`os.Create` (leaving an empty file), write the buffer (a failed write
leaves the bytes written so far in the created file). -/
def downloadPDF (w : World) (finalURL outputDir : String) : DlResult :=
  if fileExists w.fs (targetPath outputDir finalURL) then
    { success := false, fs := w.fs, netRequests := 0 }
  else
    match w.net finalURL with
    | none => { success := false, fs := w.fs, netRequests := 1 }
    | some resp =>
      if resp.status ≠ 200 then
        { success := false, fs := w.fs, netRequests := 1 }
      else if ¬ containsSubstr resp.contentType "application/pdf" then
        { success := false, fs := w.fs, netRequests := 1 }
      else if resp.readErr then
        { success := false, fs := w.fs, netRequests := 1 }
      else if resp.body.length = 0 then
        { success := false, fs := w.fs, netRequests := 1 }
      else if w.createFails (targetPath outputDir finalURL) then
        { success := false, fs := w.fs, netRequests := 1 }
      else
        match w.writeFailsAt (targetPath outputDir finalURL) with
        | some k =>
          { success := false,
            fs := fsUpdate (fsUpdate w.fs (targetPath outputDir finalURL) (FsEntry.file ""))
              (targetPath outputDir finalURL) (FsEntry.file (⟨resp.body.data.take k⟩)),
            netRequests := 1 }
        | none =>
          { success := true,
            fs := fsUpdate (fsUpdate w.fs (targetPath outputDir finalURL) (FsEntry.file ""))
              (targetPath outputDir finalURL) (FsEntry.file resp.body),
            netRequests := 1 }

/-! ## Driver (`main`, `getDataFromURL` and helpers) -/

/-- The one way this program dies: the nil-pointer dereference runtime
panic. -/
inductive GoPanic where
  | nilPointerDereference
deriving DecidableEq

/-- Models Go `getDataFromURL`.  On a transport error (`err != nil`)
`http.Get` returns a nil response; the code logs the error but then
evaluates `io.ReadAll(response.Body)` on that nil response, a nil-pointer
dereference that panics the process.  Read and close errors are only
logged, and the body read so far is returned. -/
def getDataFromURL (net : String → Option HttpResponse) (uri : String) :
    Except GoPanic String :=
  match net uri with
  | none => Except.error GoPanic.nilPointerDereference
  | some resp => Except.ok resp.body

/-- Suffix of `s` after the first occurrence of `pat`, if any. -/
def afterSubstr : List Char → List Char → Option (List Char)
  | [], pat => if pat = [] then some [] else none
  | c :: cs, pat =>
    if startsWithL pat (c :: cs) then some ((c :: cs).drop pat.length)
    else afterSubstr cs pat

/-- Models Go `getDomainFromURL` (`url.Parse` then `Hostname()`) for the
URL shapes this program meets: the text between `://` and the next `/` or
`:`, and `""` for scheme-less relative references (on which `Hostname()`
is empty).  `url.Parse` errors, which the source answers with `""` as
well, do not occur on these shapes. -/
def getDomainFromURL (rawURL : String) : String :=
  match afterSubstr rawURL.data [':', '/', '/'] with
  | none => ""
  | some r => ⟨r.takeWhile (fun c => c != '/' && c != ':')⟩

/-- Models Go `isUrlValid` (`url.ParseRequestURI(uri) == nil` check) for
the absolute URLs this program constructs, all of which parse; only the
empty string among its inputs would not. -/
def isUrlValid (uri : String) : Bool :=
  uri ≠ ""

/-- Models Go `appendToSlice`. -/
def appendToSlice (slice : List String) (content : String) : List String :=
  slice ++ [content]

/-- The hardcoded seed page list of `main`. -/
def remoteAPIURLs : List String :=
  ["https://www.poolseason.com/safety-data-sheets/"]

/-- The hardcoded base domain of `main`. -/
def remoteDomain : String := "https://www.poolseason.com"

/-- The PDF output directory constant. -/
def pdfOutputDir : String := "PDFs/"

/-- One iteration of the download loop of `main`: resolve a relative link
against `remoteDomain`, validate, download, thread the filesystem. -/
def mainLoopStep (w : World) (fs : Fs) (urls : String) : Fs :=
  let resolved := if getDomainFromURL urls = "" then remoteDomain ++ urls else urls
  if isUrlValid resolved then
    (downloadPDF { w with fs := fs } resolved pdfOutputDir).fs
  else fs

/-- Models Go `main`: scrape each seed page (a transport error there
panics the whole run, see `getDataFromURL`), join the bodies with `"\n"`,
extract the PDF hrefs, deduplicate, then download each candidate in order,
threading the filesystem.  Returns the final filesystem. -/
def mainRun (w : World) : Except GoPanic Fs := do
  let getData ← remoteAPIURLs.mapM (getDataFromURL w.net)
  let finalPDFList := extractPDFUrls (String.intercalate "\n" getData)
  let downloadPDFURLSlice := finalPDFList.foldl appendToSlice []
  let deduped := removeDuplicatesFromSlice downloadPDFURLSlice
  return deduped.foldl (mainLoopStep w) w.fs


/-! ## Concrete worlds and responses used by witnesses and counterexamples -/

/-- A world whose network refuses every request: every `http.Get` returns
a transport error. -/
def deadNetWorld : World :=
  { net := fun _ => none,
    fs := fun _ => none,
    createFails := fun _ => false,
    writeFailsAt := fun _ => none }

/-- A world whose filesystem already holds the target file
`PDFs/sheet.pdf`. -/
def skipWorld : World :=
  { net := fun _ => none,
    fs := fun p => if p = "PDFs/sheet.pdf" then some (FsEntry.file "x") else none,
    createFails := fun _ => false,
    writeFailsAt := fun _ => none }

/-- The HTML response used to witness C5. -/
def htmlResp : HttpResponse :=
  { status := 200, contentType := "text/html", body := "<html></html>", readErr := false }

/-- A world that answers every request with a 200 `text/html` page. -/
def htmlWorld : World :=
  { net := fun _ => some htmlResp,
    fs := fun _ => none,
    createFails := fun _ => false,
    writeFailsAt := fun _ => none }

/-- The empty-body PDF response used to witness C6. -/
def emptyPdfResp : HttpResponse :=
  { status := 200, contentType := "application/pdf", body := "", readErr := false }

/-- A world that answers every request with a 200 `application/pdf`
response carrying zero bytes. -/
def emptyPdfWorld : World :=
  { net := fun _ => some emptyPdfResp,
    fs := fun _ => none,
    createFails := fun _ => false,
    writeFailsAt := fun _ => none }

/-- A world in which the write of the buffered body fails after one byte
(`(*bytes.Buffer).WriteTo` returns an error, e.g. a full disk). -/
def partialWriteWorld : World :=
  { net := fun _ =>
      some { status := 200, contentType := "application/pdf", body := "ab", readErr := false },
    fs := fun _ => none,
    createFails := fun _ => false,
    writeFailsAt := fun _ => some 1 }

/-- A world whose network answers 404 to everything. -/
def notFoundWorld : World :=
  { net := fun _ =>
      some { status := 404, contentType := "text/html", body := "nope", readErr := false },
    fs := fun _ => none,
    createFails := fun _ => false,
    writeFailsAt := fun _ => none }

/-! ## Sanity checks on concrete inputs -/

example : urlToFilename "https://www.poolseason.com/docs/Sheet-1.pdf" = "sheet_1.pdf" := by decide
example : urlToFilename "https://x.com/file.pdf?v=1" = "file_v_1.pdf?v=1" := by decide
example : urlToFilename "https://x.com/report1.pdf/" = "report1" := by decide
example : urlToFilename "https://x.com/.pdf" = "pdf.pdf" := by decide
example : removeDuplicatesFromSlice ["a", "b", "a", "c", "b"] = ["a", "b", "c"] := by decide
example :
    extractPDFUrls "<a href=\"x.pdf\"><a href=\"y.txt\">" = ["x.pdf"] := by decide
example : extractPDFUrls "<a href=\".pdf\">" = [] := by decide
example :
    extractPDFUrls "href=\"a.pdf\" junk href=\"b.pdf\"" = ["a.pdf", "b.pdf"] := by decide
example : joinPath "PDFs/" "sheet_1.pdf" = "PDFs/sheet_1.pdf" := by decide
example : getDomainFromURL "https://www.poolseason.com/a/b.pdf" = "www.poolseason.com" := by decide
example : getDomainFromURL "/docs/sheet1.pdf" = "" := by decide

/-! ## Claim C1: error handling of the run -/

/-- C1.  The claim says every error, including a transport error while
fetching a seed page, is logged and only that item abandoned.  The code
violates this: `getDataFromURL` logs the `http.Get` error but then calls
`io.ReadAll(response.Body)` on the nil response, a nil-pointer dereference
that panics and aborts the whole run before any candidate is attempted. -/
theorem seed_transport_error_aborts_run :
    getDataFromURL deadNetWorld.net "https://www.poolseason.com/safety-data-sheets/" =
      Except.error GoPanic.nilPointerDereference ∧
    mainRun deadNetWorld = Except.error GoPanic.nilPointerDereference :=
  ⟨rfl, rfl⟩

/-! ## Claims C4, C5, C6, C2, C10: the downloader -/

/-- C4.  If a non-directory file already exists at the computed target
path, `downloadPDF` issues no network request, leaves the filesystem
untouched, and takes the skip path (whose return value is `false`). -/
theorem downloadPDF_skips_existing (w : World) (u d : String)
    (h : fileExists w.fs (targetPath d u) = true) :
    (downloadPDF w u d).netRequests = 0 ∧
    (downloadPDF w u d).fs = w.fs ∧
    (downloadPDF w u d).success = false := by
  unfold downloadPDF
  rw [if_pos h]
  exact ⟨rfl, rfl, rfl⟩

/-- Witness for `downloadPDF_skips_existing` at a concrete world. -/
theorem downloadPDF_skips_existing_witness :
    (downloadPDF skipWorld "https://www.poolseason.com/sheet.pdf" "PDFs/").netRequests = 0 ∧
    (downloadPDF skipWorld "https://www.poolseason.com/sheet.pdf" "PDFs/").fs = skipWorld.fs ∧
    (downloadPDF skipWorld "https://www.poolseason.com/sheet.pdf" "PDFs/").success = false :=
  downloadPDF_skips_existing skipWorld "https://www.poolseason.com/sheet.pdf" "PDFs/" (by decide)

/-- C5.  A 200 response whose `Content-Type` does not contain
`application/pdf` produces no file and reports failure. -/
theorem downloadPDF_content_type_mismatch_fails (w : World) (u d : String)
    (resp : HttpResponse) (hn : w.net u = some resp) (hs : resp.status = 200)
    (hc : containsSubstr resp.contentType "application/pdf" = false) :
    (downloadPDF w u d).success = false ∧ (downloadPDF w u d).fs = w.fs := by
  unfold downloadPDF
  by_cases hf : fileExists w.fs (targetPath d u) = true
  · rw [if_pos hf]
    exact ⟨rfl, rfl⟩
  · rw [if_neg hf, hn]
    simp [hs, hc]

/-- Witness for `downloadPDF_content_type_mismatch_fails`. -/
theorem downloadPDF_content_type_mismatch_fails_witness :
    (downloadPDF htmlWorld "https://x.com/a.pdf" "PDFs/").success = false ∧
    (downloadPDF htmlWorld "https://x.com/a.pdf" "PDFs/").fs = htmlWorld.fs :=
  downloadPDF_content_type_mismatch_fails htmlWorld "https://x.com/a.pdf" "PDFs/"
    htmlResp rfl rfl (by decide)

/-- C6.  A 200 response with the right content type but a zero-length body
produces no file and reports failure. -/
theorem downloadPDF_zero_byte_body_fails (w : World) (u d : String)
    (resp : HttpResponse) (hn : w.net u = some resp) (hs : resp.status = 200)
    (hc : containsSubstr resp.contentType "application/pdf" = true)
    (hr : resp.readErr = false) (hb : resp.body = "") :
    (downloadPDF w u d).success = false ∧ (downloadPDF w u d).fs = w.fs := by
  unfold downloadPDF
  by_cases hf : fileExists w.fs (targetPath d u) = true
  · rw [if_pos hf]
    exact ⟨rfl, rfl⟩
  · rw [if_neg hf, hn]
    simp [hs, hc, hr, hb]

/-- Witness for `downloadPDF_zero_byte_body_fails`. -/
theorem downloadPDF_zero_byte_body_fails_witness :
    (downloadPDF emptyPdfWorld "https://x.com/a.pdf" "PDFs/").success = false ∧
    (downloadPDF emptyPdfWorld "https://x.com/a.pdf" "PDFs/").fs = emptyPdfWorld.fs :=
  downloadPDF_zero_byte_body_fails emptyPdfWorld "https://x.com/a.pdf" "PDFs/"
    emptyPdfResp rfl rfl (by decide) rfl rfl

/-- Counterexample to C2 as stated: here `downloadPDF` returns failure,
yet the filesystem at the target path changed — `os.Create` already
created the file and the failed write left one byte in it. -/
theorem downloadPDF_write_failure_leaves_partial_file :
    (downloadPDF partialWriteWorld "https://x.com/a.pdf" "PDFs/").success = false ∧
    (downloadPDF partialWriteWorld "https://x.com/a.pdf" "PDFs/").fs "PDFs/a.pdf" =
      some (FsEntry.file "a") ∧
    partialWriteWorld.fs "PDFs/a.pdf" = none := by
  refine ⟨by decide, by decide, rfl⟩

/-- C2 as amended.  At most the target path changes, and every failure
path other than a failed write of the buffered body (skip, transport
error, bad status, content-type mismatch, read error, zero bytes, create
error) leaves the filesystem unchanged; only when
`(*bytes.Buffer).WriteTo` fails does a failing call mutate the target
path. -/
theorem downloadPDF_failure_effects (w : World) (u d : String) :
    ((downloadPDF w u d).success = false →
      ((downloadPDF w u d).fs = w.fs ∨
       (w.writeFailsAt (targetPath d u)).isSome = true)) ∧
    (∀ p, p ≠ targetPath d u → (downloadPDF w u d).fs p = w.fs p) := by
  unfold downloadPDF
  split
  · exact ⟨fun _ => Or.inl rfl, fun p _ => rfl⟩
  · split
    · exact ⟨fun _ => Or.inl rfl, fun p _ => rfl⟩
    · split
      · exact ⟨fun _ => Or.inl rfl, fun p _ => rfl⟩
      · split
        · exact ⟨fun _ => Or.inl rfl, fun p _ => rfl⟩
        · split
          · exact ⟨fun _ => Or.inl rfl, fun p _ => rfl⟩
          · split
            · exact ⟨fun _ => Or.inl rfl, fun p _ => rfl⟩
            · split
              · exact ⟨fun _ => Or.inl rfl, fun p _ => rfl⟩
              · split
                · rename_i hw
                  refine ⟨fun _ => Or.inr (by simp [hw]), fun p hp => ?_⟩
                  simp [fsUpdate, hp]
                · refine ⟨fun hfalse => by simp at hfalse, fun p hp => ?_⟩
                  simp [fsUpdate, hp]

/-- Witness for `downloadPDF_failure_effects` at a concrete failing call. -/
theorem downloadPDF_failure_effects_witness :
    (downloadPDF notFoundWorld "https://x.com/b.pdf" "PDFs/").fs = notFoundWorld.fs ∨
    (notFoundWorld.writeFailsAt (targetPath "PDFs/" "https://x.com/b.pdf")).isSome = true :=
  (downloadPDF_failure_effects notFoundWorld "https://x.com/b.pdf" "PDFs/").1 (by decide)

/-- C10.  The boolean result of `downloadPDF` is `true` exactly when a
fresh file was created at the target path and the whole buffered body was
written to it; the skip path and every failure path all return the same
value `false`, so the caller cannot tell them apart. -/
theorem downloadPDF_success_iff (w : World) (u d : String) :
    ((downloadPDF w u d).success = true ↔
      (fileExists w.fs (targetPath d u) = false ∧
       ∃ resp, w.net u = some resp ∧ resp.status = 200 ∧
         containsSubstr resp.contentType "application/pdf" = true ∧
         resp.readErr = false ∧ resp.body.length ≠ 0 ∧
         w.createFails (targetPath d u) = false ∧
         w.writeFailsAt (targetPath d u) = none ∧
         (downloadPDF w u d).fs (targetPath d u) = some (FsEntry.file resp.body)))
    ∧ (fileExists w.fs (targetPath d u) = true →
       (downloadPDF w u d).success = false ∧ (downloadPDF w u d).netRequests = 0) := by
  constructor
  · unfold downloadPDF
    split
    · rename_i hf
      simp [hf]
    · rename_i hf
      split
      · rename_i hn
        simp [hn]
      · rename_i resp hn
        split
        · rename_i hs
          simp [hn, hs]
        · rename_i hs
          split
          · rename_i hc
            simp only [Bool.not_eq_true] at hc
            simp [hn, hc]
          · rename_i hc
            split
            · rename_i hr
              simp [hn, hr]
            · rename_i hr
              split
              · rename_i hb
                simp [hn, hb]
              · rename_i hb
                split
                · rename_i hcr
                  simp [hn, hcr]
                · rename_i hcr
                  split
                  · rename_i k hw
                    simp [hn, hw]
                  · rename_i hw
                    simp only [Bool.not_eq_true] at hf hc hcr
                    simp only [not_not] at hs hc
                    simp only [Bool.not_eq_true] at hr
                    refine iff_of_true rfl ⟨hf, resp, hn, ?_, ?_, hr, hb, hcr, hw, ?_⟩
                    · omega
                    · simpa using hc
                    · simp [fsUpdate]
  · intro hf
    unfold downloadPDF
    rw [if_pos hf]
    exact ⟨rfl, rfl⟩

/-- Witness for `downloadPDF_success_iff`: the skip conjunct evaluated at
a concrete world that already holds the target file. -/
theorem downloadPDF_success_iff_witness :
    (downloadPDF skipWorld "https://www.poolseason.com/sheet.pdf" "PDFs/").success = false ∧
    (downloadPDF skipWorld "https://www.poolseason.com/sheet.pdf" "PDFs/").netRequests = 0 :=
  (downloadPDF_success_iff skipWorld "https://www.poolseason.com/sheet.pdf" "PDFs/").2
    (by decide)

/-! ## Claim C8: deduplicator -/

/-- Unfolding lemma: `dedupSpec` on the empty list. -/
theorem dedupSpec_nil : dedupSpec [] = [] := by
  rw [dedupSpec.eq_def]

/-- Unfolding lemma: `dedupSpec` on a cons cell. -/
theorem dedupSpec_cons (x : String) (xs : List String) :
    dedupSpec (x :: xs) = x :: dedupSpec (xs.filter (fun y => y != x)) := by
  rw [dedupSpec.eq_def]

/-- `dedupAux` computes `dedupSpec` of the not-yet-seen elements. -/
theorem dedupAux_eq_dedupSpec (l : List String) : ∀ seen,
    dedupAux seen l = dedupSpec (l.filter (fun x => !seen.contains x)) := by
  induction l with
  | nil => intro seen; simp [dedupAux, dedupSpec_nil]
  | cons x xs ih =>
    intro seen
    by_cases h : x ∈ seen
    · simp [dedupAux, h, ih]
    · simp [dedupAux, h, ih]
      rw [dedupSpec_cons, List.filter_filter]
      have hp : (fun a => a != x && !decide (a ∈ seen)) =
          (fun a => !decide (a = x) && !decide (a ∈ seen)) := by
        funext a
        have : (a != x) = !decide (a = x) := by
          rw [Bool.eq_iff_iff]; simp
        rw [this]
      rw [hp]

/-- The Go deduplicator equals its spec-side description. -/
theorem removeDuplicatesFromSlice_eq_dedupSpec (l : List String) :
    removeDuplicatesFromSlice l = dedupSpec l := by
  unfold removeDuplicatesFromSlice
  rw [dedupAux_eq_dedupSpec]
  simp

/-- `dedupSpec` output is a sublist of its input. -/
theorem dedupSpec_sublist (l : List String) : (dedupSpec l).Sublist l := by
  induction l using dedupSpec.induct with
  | case1 => simp [dedupSpec_nil]
  | case2 x xs ih =>
    rw [dedupSpec_cons]
    exact List.Sublist.cons₂ x (ih.trans (List.filter_sublist xs))

/-- `dedupSpec` membership agrees with input membership. -/
theorem dedupSpec_mem (a : String) (l : List String) :
    a ∈ dedupSpec l ↔ a ∈ l := by
  induction l using dedupSpec.induct with
  | case1 => simp [dedupSpec_nil]
  | case2 x xs ih =>
    rw [dedupSpec_cons]
    constructor
    · intro h
      rcases List.mem_cons.mp h with h | h
      · exact h ▸ List.mem_cons_self _ _
      · exact List.mem_cons_of_mem x (List.mem_of_mem_filter (ih.mp h))
    · intro h
      rcases List.mem_cons.mp h with h | h
      · exact h ▸ List.mem_cons_self _ _
      · by_cases hx : a = x
        · exact hx ▸ List.mem_cons_self _ _
        · refine List.mem_cons_of_mem x (ih.mpr ?_)
          refine List.mem_filter.mpr ⟨h, ?_⟩
          simp [bne, hx]

/-- `dedupSpec` output has no duplicates. -/
theorem dedupSpec_nodup (l : List String) : (dedupSpec l).Nodup := by
  induction l using dedupSpec.induct with
  | case1 => simp [dedupSpec_nil]
  | case2 x xs ih =>
    rw [dedupSpec_cons]
    refine List.nodup_cons.mpr ⟨fun hx => ?_, ih⟩
    have := List.mem_filter.mp ((dedupSpec_mem x _).mp hx)
    simp [bne] at this

/-- C8.  The deduplicator keeps exactly the first occurrence of each
distinct string (it equals the spec-side `dedupSpec`), its output has no
repeated elements, is a subsequence of the input, has the same members as
the input, and behaves as the spec's example demands; comparison is exact
string equality. -/
theorem removeDuplicatesFromSlice_spec (l : List String) :
    removeDuplicatesFromSlice l = dedupSpec l ∧
    (removeDuplicatesFromSlice l).Nodup ∧
    (removeDuplicatesFromSlice l).Sublist l ∧
    (∀ a, a ∈ removeDuplicatesFromSlice l ↔ a ∈ l) ∧
    removeDuplicatesFromSlice ["a", "b", "a", "c", "b"] = ["a", "b", "c"] := by
  refine ⟨removeDuplicatesFromSlice_eq_dedupSpec l, ?_, ?_, ?_, by decide⟩
  · rw [removeDuplicatesFromSlice_eq_dedupSpec]
    exact dedupSpec_nodup l
  · rw [removeDuplicatesFromSlice_eq_dedupSpec]
    exact dedupSpec_sublist l
  · intro a
    rw [removeDuplicatesFromSlice_eq_dedupSpec]
    exact dedupSpec_mem a l

/-! ## Claim C3: sanitizer output safety -/

/-- Every character emitted by the unsafe-run replacement is either a safe
character of the input or the separator. -/
theorem collapseMap_chars (l : List Char) : ∀ (b : Bool) (c : Char),
    c ∈ collapseMap b l → isSafeChar c = true ∨ c = '_' := by
  induction l with
  | nil => intro b c h; simp [collapseMap] at h
  | cons a as ih =>
    intro b c h
    by_cases ha : isSafeChar a = true
    · rw [collapseMap, if_pos ha] at h
      rcases List.mem_cons.mp h with rfl | h
      · exact Or.inl ha
      · exact ih false c h
    · rw [collapseMap, if_neg ha] at h
      cases b with
      | true =>
        rw [if_pos rfl] at h
        exact ih true c h
      | false =>
        rw [if_neg (by simp)] at h
        rcases List.mem_cons.mp h with rfl | h
        · exact Or.inr rfl
        · exact ih true c h

/-- Underscore collapsing emits only input characters or the separator. -/
theorem collapseUnd_chars (l : List Char) : ∀ (b : Bool) (c : Char),
    c ∈ collapseUnd b l → c ∈ l ∨ c = '_' := by
  induction l with
  | nil => intro b c h; simp [collapseUnd] at h
  | cons a as ih =>
    intro b c h
    by_cases ha : (a == '_') = true
    · rw [collapseUnd, if_pos ha] at h
      cases b with
      | true =>
        rw [if_pos rfl] at h
        rcases ih true c h with h | h
        · exact Or.inl (List.mem_cons_of_mem _ h)
        · exact Or.inr h
      | false =>
        rw [if_neg (by simp)] at h
        rcases List.mem_cons.mp h with rfl | h
        · exact Or.inr rfl
        · rcases ih true c h with h | h
          · exact Or.inl (List.mem_cons_of_mem _ h)
          · exact Or.inr h
    · rw [collapseUnd, if_neg ha] at h
      rcases List.mem_cons.mp h with rfl | h
      · exact Or.inl (List.mem_cons_self _ _)
      · rcases ih false c h with h | h
        · exact Or.inl (List.mem_cons_of_mem _ h)
        · exact Or.inr h

/-- Trimming a leading separator emits only input characters. -/
theorem cutLeadingSep_subset (l : List Char) (c : Char)
    (h : c ∈ cutLeadingSep l) : c ∈ l := by
  cases l with
  | nil => simp [cutLeadingSep] at h
  | cons a as =>
    rw [cutLeadingSep] at h
    by_cases ha : (a == '_') = true
    · rw [if_pos ha] at h
      exact List.mem_cons_of_mem _ h
    · rwa [if_neg ha] at h

/-- Substring removal only deletes: every output character is an input
character. -/
theorem replaceAllEmptyAux_subset (pat : List Char) : ∀ (fuel : Nat) (l : List Char) (c : Char),
    c ∈ replaceAllEmptyAux pat fuel l → c ∈ l := by
  intro fuel
  induction fuel with
  | zero => intro l c h; simp [replaceAllEmptyAux] at h
  | succ n ih =>
    intro l c h
    cases l with
    | nil => simp [replaceAllEmptyAux] at h
    | cons a as =>
      rw [replaceAllEmptyAux] at h
      by_cases hm : startsWithL pat (a :: as) = true
      · rw [if_pos hm] at h
        exact List.drop_subset pat.length (a :: as) (ih _ c h)
      · rw [if_neg hm] at h
        rcases List.mem_cons.mp h with rfl | h
        · exact List.mem_cons_self _ _
        · exact List.mem_cons_of_mem _ (ih as c h)

/-- Characters of `removeSubstringL` output come from its input. -/
theorem removeSubstringL_subset (l pat : List Char) (c : Char)
    (h : c ∈ removeSubstringL l pat) : c ∈ l :=
  replaceAllEmptyAux_subset pat l.length l c h

/-- Every character of `urlToFilenameL`'s output is safe, the separator,
or a character of the raw extension that gets appended verbatim. -/
theorem urlToFilenameL_chars (raw : List Char) (c : Char)
    (h : c ∈ urlToFilenameL raw) :
    isSafeChar c = true ∨ c = '_' ∨ c ∈ fileExt (raw.map Char.toLower) := by
  unfold urlToFilenameL at h
  rcases List.mem_append.mp h with h | h
  · have h1 := removeSubstringL_subset _ _ _ h
    have h2 := removeSubstringL_subset _ _ _ h1
    have h3 := cutLeadingSep_subset _ _ h2
    rcases collapseUnd_chars _ _ _ h3 with h4 | h4
    · rcases collapseMap_chars _ _ _ h4 with h5 | h5
      · exact Or.inl h5
      · exact Or.inr (Or.inl h5)
    · exact Or.inr (Or.inl h4)
  · exact Or.inr (Or.inr h)

/-- C3 as amended.  After lowercasing and taking the basename, every
maximal unsafe run is replaced by one `_`, so every character of the
output other than the appended extension is in `[a-z0-9_]`; whenever the
raw URL's extension itself consists of safe characters and dots, the whole
output is confined to `[a-z0-9_.]`.  (The extension is appended verbatim,
hence the hypothesis — see the counterexample for why it is needed.) -/
theorem urlToFilename_safe_chars (raw : String)
    (hext : (fileExt (raw.data.map Char.toLower)).all
      (fun c => isSafeChar c || c == '.') = true) :
    ((urlToFilename raw).data.all
      (fun c => isSafeChar c || c == '_' || c == '.')) = true := by
  rw [List.all_eq_true]
  intro c hc
  have hc' : c ∈ urlToFilenameL raw.data := hc
  rcases urlToFilenameL_chars raw.data c hc' with h | h | h
  · simp [h]
  · simp [h]
  · have := List.all_eq_true.mp hext c h
    rcases Bool.or_eq_true_iff.mp this with h' | h'
    · simp [h']
    · simp [h']

/-- Witness for `urlToFilename_safe_chars` on a URL with a clean `.pdf`
extension. -/
theorem urlToFilename_safe_chars_witness :
    ((urlToFilename "https://x.com/file.pdf").data.all
      (fun c => isSafeChar c || c == '_' || c == '.')) = true :=
  urlToFilename_safe_chars "https://x.com/file.pdf" (by decide)

/-- Counterexample to C3 as stated: the URL `https://x.com/file.pdf?v=1`
yields the filename `file_v_1.pdf?v=1`, which contains `?` — not a safe
character, not the separator, and not the dot of the extension. -/
theorem urlToFilename_unsafe_output :
    urlToFilename "https://x.com/file.pdf?v=1" = "file_v_1.pdf?v=1" ∧
    '?' ∈ (urlToFilename "https://x.com/file.pdf?v=1").data ∧
    isSafeChar '?' = false ∧ '?' ≠ '_' ∧ '?' ≠ '.' :=
  ⟨by decide, by decide, by decide, by decide, by decide⟩

/-! ## Claim C7: sanitizer identity on clean basenames -/

/-- A safe character is never equal (as `==`) to an unsafe one. -/
theorem safeChar_beq_other (c x : Char) (hc : isSafeChar c = true)
    (hx : isSafeChar x = false) : (c == x) = false := by
  cases h : (c == x) with
  | false => rfl
  | true =>
    have he : c = x := eq_of_beq h
    subst he
    rw [hx] at hc
    exact Bool.noConfusion hc

/-- A safe character is never equal (as `==`, flipped) to an unsafe one. -/
theorem unsafe_beq_safe (x c : Char) (hc : isSafeChar c = true)
    (hx : isSafeChar x = false) : (x == c) = false := by
  cases h : (x == c) with
  | false => rfl
  | true =>
    have he : x = c := eq_of_beq h
    subst he
    rw [hx] at hc
    exact Bool.noConfusion hc

/-- `takeWhile` swallows a prefix wholly satisfying the predicate and stops
at the first failing element. -/
theorem takeWhile_append_stop (pred : Char → Bool) :
    ∀ (A : List Char) (x : Char) (B : List Char),
    (∀ c ∈ A, pred c = true) → pred x = false →
    (A ++ x :: B).takeWhile pred = A := by
  intro A
  induction A with
  | nil =>
    intro x B _ hx
    simp [List.takeWhile_cons, hx]
  | cons a A' ih =>
    intro x B hA hx
    have ha : pred a = true := hA a (List.mem_cons_self _ _)
    rw [List.cons_append, List.takeWhile_cons, ha, if_pos rfl]
    rw [ih x B (fun c hc => hA c (List.mem_cons_of_mem _ hc)) hx]

/-- Appending a final non-slash element defeats trailing-slash stripping. -/
theorem stripTrailingSlashes_no_slash (l : List Char) (x : Char)
    (hx : (x == '/') = false) : stripTrailingSlashes (l ++ [x]) = l ++ [x] := by
  unfold stripTrailingSlashes
  rw [List.reverse_append]
  simp only [List.reverse_cons, List.reverse_nil, List.nil_append, List.singleton_append,
    List.dropWhile_cons, hx, Bool.false_eq_true, if_false]
  simp

/-- `filepath.Ext` of anything ending in `.pdf` whose dot is final. -/
theorem fileExt_append_pdf (l : List Char) :
    fileExt (l ++ ['.', 'p', 'd', 'f']) = ['.', 'p', 'd', 'f'] := by
  unfold fileExt
  rw [List.reverse_append]
  rfl

/-- `path.Base` of a path whose final segment is a safe basename plus
`.pdf`. -/
theorem pathBase_of_shape (p S : List Char) (hS : ∀ c ∈ S, isSafeChar c = true) :
    pathBase (p ++ '/' :: (S ++ ['.', 'p', 'd', 'f'])) = S ++ ['.', 'p', 'd', 'f'] := by
  have hrw : p ++ '/' :: (S ++ ['.', 'p', 'd', 'f']) =
      (p ++ '/' :: (S ++ ['.', 'p', 'd'])) ++ ['f'] := by simp
  have hne : p ++ '/' :: (S ++ ['.', 'p', 'd', 'f']) ≠ [] := by simp
  unfold pathBase
  rw [if_neg hne]
  rw [hrw, stripTrailingSlashes_no_slash _ 'f' (by decide), ← hrw]
  have hne2 : p ++ '/' :: (S ++ ['.', 'p', 'd', 'f']) ≠ [] := hne
  rw [if_neg hne2]
  unfold afterLastSlash
  have hrev : (p ++ '/' :: (S ++ ['.', 'p', 'd', 'f'])).reverse =
      (['f', 'd', 'p', '.'] ++ S.reverse) ++ '/' :: p.reverse := by simp
  rw [hrev]
  rw [takeWhile_append_stop _ (['f', 'd', 'p', '.'] ++ S.reverse) '/' p.reverse ?all ?stop]
  · simp
  case all =>
    intro c hc
    rcases List.mem_append.mp hc with hc | hc
    · fin_cases hc <;> decide
    · have hsc := hS c (List.mem_reverse.mp hc)
      have h1 := safeChar_beq_other c '/' hsc (by decide)
      simp [bne, h1]
  case stop => decide

/-- The unsafe-run replacement passes a fully safe prefix through. -/
theorem collapseMap_safe_stem (S : List Char) :
    ∀ (l : List Char), (∀ c ∈ S, isSafeChar c = true) →
    collapseMap false (S ++ l) = S ++ collapseMap false l := by
  induction S with
  | nil => intro l _; rfl
  | cons a S' ih =>
    intro l hS
    have ha : isSafeChar a = true := hS a (List.mem_cons_self _ _)
    rw [List.cons_append, collapseMap, if_pos ha, List.cons_append]
    rw [ih l (fun c hc => hS c (List.mem_cons_of_mem _ hc))]

/-- Underscore collapsing passes a fully safe prefix through. -/
theorem collapseUnd_safe_stem (S : List Char) :
    ∀ (l : List Char), (∀ c ∈ S, isSafeChar c = true) →
    collapseUnd false (S ++ l) = S ++ collapseUnd false l := by
  induction S with
  | nil => intro l _; rfl
  | cons a S' ih =>
    intro l hS
    have ha : isSafeChar a = true := hS a (List.mem_cons_self _ _)
    rw [List.cons_append, collapseUnd, if_neg (by rw [safeChar_beq_other a '_' ha (by decide)]; simp),
      List.cons_append]
    rw [ih l (fun c hc => hS c (List.mem_cons_of_mem _ hc))]

/-- `replaceAllEmptyAux` maps the empty list to itself at any fuel. -/
theorem replaceAllEmptyAux_nil (pat : List Char) (n : Nat) :
    replaceAllEmptyAux pat n [] = [] := by
  cases n with
  | zero => rfl
  | succ m => rfl

/-- Removing `"_pdf"` from a safe stem followed by `"_pdf"` leaves exactly
the stem (the stem contains no underscore, so only the suffix matches). -/
theorem replacePdf_safe (S : List Char) : ∀ (fuel : Nat),
    (∀ c ∈ S, isSafeChar c = true) → S.length + 4 ≤ fuel →
    replaceAllEmptyAux ['_', 'p', 'd', 'f'] fuel (S ++ ['_', 'p', 'd', 'f']) = S := by
  induction S with
  | nil =>
    intro fuel _ hf
    cases fuel with
    | zero => omega
    | succ n =>
      rw [List.nil_append, replaceAllEmptyAux, if_pos (by decide)]
      exact replaceAllEmptyAux_nil _ n
  | cons a S' ih =>
    intro fuel hS hf
    cases fuel with
    | zero => omega
    | succ n =>
      have ha : isSafeChar a = true := hS a (List.mem_cons_self _ _)
      rw [List.cons_append, replaceAllEmptyAux]
      rw [if_neg (by rw [startsWithL, unsafe_beq_safe '_' a ha (by decide), Bool.false_and]; simp)]
      rw [ih n (fun c hc => hS c (List.mem_cons_of_mem _ hc)) (by simp at hf ⊢; omega)]

/-- Removing `"_zip"` from an underscore-free safe string is the
identity. -/
theorem replaceZip_safe (S : List Char) : ∀ (fuel : Nat),
    (∀ c ∈ S, isSafeChar c = true) → S.length ≤ fuel →
    replaceAllEmptyAux ['_', 'z', 'i', 'p'] fuel S = S := by
  induction S with
  | nil => intro fuel _ _; exact replaceAllEmptyAux_nil _ fuel
  | cons a S' ih =>
    intro fuel hS hf
    cases fuel with
    | zero => simp at hf
    | succ n =>
      have ha : isSafeChar a = true := hS a (List.mem_cons_self _ _)
      rw [replaceAllEmptyAux]
      rw [if_neg (by rw [startsWithL, unsafe_beq_safe '_' a ha (by decide), Bool.false_and]; simp)]
      rw [ih n (fun c hc => hS c (List.mem_cons_of_mem _ hc)) (by simp at hf ⊢; omega)]

/-- C7 as amended.  For every URL whose lowercased form ends in
`/<stem>.pdf` with a nonempty stem of safe characters — so its basename is
the stem plus the extension and nothing was cut off after it — the
sanitizer returns that lowercase basename unchanged. -/
theorem urlToFilename_safe_basename (raw : String) (p S : List Char)
    (hshape : raw.data.map Char.toLower = p ++ '/' :: (S ++ ['.', 'p', 'd', 'f']))
    (hS : ∀ c ∈ S, isSafeChar c = true) (hne : S ≠ []) :
    urlToFilename raw = ⟨S ++ ['.', 'p', 'd', 'f']⟩ := by
  cases S with
  | nil => exact absurd rfl hne
  | cons s0 S' =>
    have hs0 : isSafeChar s0 = true := hS s0 (List.mem_cons_self _ _)
    simp only [urlToFilename, urlToFilenameL]
    rw [hshape]
    rw [pathBase_of_shape p _ hS]
    rw [show p ++ '/' :: ((s0 :: S') ++ ['.', 'p', 'd', 'f']) =
      (p ++ '/' :: (s0 :: S')) ++ ['.', 'p', 'd', 'f'] by simp]
    rw [fileExt_append_pdf]
    rw [collapseMap_safe_stem _ _ hS]
    rw [show collapseMap false ['.', 'p', 'd', 'f'] = ['_', 'p', 'd', 'f'] from rfl]
    rw [collapseUnd_safe_stem _ _ hS]
    rw [show collapseUnd false ['_', 'p', 'd', 'f'] = ['_', 'p', 'd', 'f'] from rfl]
    rw [List.cons_append, cutLeadingSep,
      if_neg (by rw [safeChar_beq_other s0 '_' hs0 (by decide)]; simp), ← List.cons_append]
    unfold removeSubstringL
    rw [replacePdf_safe _ _ hS (by simp)]
    rw [replaceZip_safe _ _ hS (by simp)]

/-- Witness for `urlToFilename_safe_basename` on a clean URL. -/
theorem urlToFilename_safe_basename_witness :
    urlToFilename "https://x.com/report1.pdf" =
      ⟨['r', 'e', 'p', 'o', 'r', 't', '1'] ++ ['.', 'p', 'd', 'f']⟩ :=
  urlToFilename_safe_basename "https://x.com/report1.pdf"
    ['h', 't', 't', 'p', 's', ':', '/', '/', 'x', '.', 'c', 'o', 'm']
    ['r', 'e', 'p', 'o', 'r', 't', '1']
    (by decide) (by decide) (by decide)

/-- Counterexample to C7 as stated: the URL `https://x.com/report1.pdf/`
has basename `report1.pdf` (safe characters plus the `.pdf` suffix, by the
program's own `getFileNameOnly`), yet the sanitizer returns `report1`: the
trailing slash makes `filepath.Ext` of the full URL empty, so no extension
is appended. -/
theorem urlToFilename_trailing_slash_cex :
    getFileNameOnly (toLowerStr "https://x.com/report1.pdf/") = "report1.pdf" ∧
    (['r', 'e', 'p', 'o', 'r', 't', '1'].all isSafeChar) = true ∧
    urlToFilename "https://x.com/report1.pdf/" = "report1" ∧
    urlToFilename "https://x.com/report1.pdf/" ≠ "report1.pdf" :=
  ⟨by decide, by decide, by decide, by decide⟩

/-! ## Claim C9: the link extractor -/

/-- A successful `startsWithL` decomposes the string as pattern plus
remainder. -/
theorem startsWithL_decomp : ∀ (pat s : List Char),
    startsWithL pat s = true → s = pat ++ s.drop pat.length := by
  intro pat
  induction pat with
  | nil => intro s _; simp
  | cons p ps ih =>
    intro s h
    cases s with
    | nil => simp [startsWithL] at h
    | cons c cs =>
      rw [startsWithL, Bool.and_eq_true] at h
      have hpc : p = c := eq_of_beq h.1
      subst hpc
      have := ih cs h.2
      calc p :: cs = p :: (ps ++ cs.drop ps.length) := by rw [← this]
        _ = (p :: ps) ++ (p :: cs).drop (p :: ps).length := by simp

/-- The head of a `dropWhile` residue fails the predicate. -/
theorem dropWhile_head_false (pred : Char → Bool) :
    ∀ (l : List Char) (d : Char) (rest : List Char),
    l.dropWhile pred = d :: rest → pred d = false := by
  intro l
  induction l with
  | nil => intro d rest h; simp [List.dropWhile] at h
  | cons a as ih =>
    intro d rest h
    rw [List.dropWhile_cons] at h
    by_cases ha : pred a = true
    · rw [if_pos ha] at h
      exact ih d rest h
    · rw [if_neg ha] at h
      cases h
      exact Bool.not_eq_true _ ▸ Bool.of_not_eq_true ha

/-- `specMatchAt` is the capture part of `matchAt`. -/
theorem specMatchAt_eq (s : List Char) :
    specMatchAt s = (matchAt s).map Prod.fst := by
  unfold specMatchAt matchAt
  by_cases hs : startsWithL hrefMark s = true
  · rw [if_pos hs, if_pos hs]
    cases hdw : (s.drop 6).dropWhile (fun c => c != '"') with
    | nil => simp [hdw]
    | cons d rest =>
      simp only [hdw]
      by_cases hc : (endsWithL pdfSuffix ((s.drop 6).takeWhile (fun c => c != '"')) &&
          decide (5 ≤ ((s.drop 6).takeWhile (fun c => c != '"')).length)) = true
      · simp [hc]
      · simp [hc]
  · rw [if_neg hs, if_neg hs]
    rfl

/-- A successful `matchAt` exposes the region structure of the text. -/
theorem matchAt_some (s T rest : List Char) (h : matchAt s = some (T, rest)) :
    s = hrefMark ++ (T ++ '"' :: rest) ∧ (∀ c ∈ T, c ≠ '"') ∧
    endsWithL pdfSuffix T = true ∧ 5 ≤ T.length := by
  unfold matchAt at h
  by_cases hs : startsWithL hrefMark s = true
  · rw [if_pos hs] at h
    cases hdw : (s.drop 6).dropWhile (fun c => c != '"') with
    | nil =>
      simp only [hdw] at h
      exact Option.noConfusion h
    | cons d rest' =>
      simp only [hdw] at h
      by_cases hc : (endsWithL pdfSuffix ((s.drop 6).takeWhile (fun c => c != '"')) &&
          decide (5 ≤ ((s.drop 6).takeWhile (fun c => c != '"')).length)) = true
      · rw [if_pos hc] at h
        have hT : (s.drop 6).takeWhile (fun c => c != '"') = T := congrArg Prod.fst (Option.some.inj h)
        have hrest : rest' = rest := congrArg Prod.snd (Option.some.inj h)
        have hd : d = '"' := by
          have := dropWhile_head_false (fun c => c != '"') (s.drop 6) d rest' hdw
          simpa [bne] using this
        rw [Bool.and_eq_true] at hc
        obtain ⟨hend, hlen⟩ := hc
        rw [hT] at hend hlen
        refine ⟨?_, ?_, hend, by simpa using hlen⟩
        · have hsplit : s = hrefMark ++ s.drop 6 := startsWithL_decomp hrefMark s hs
          have hafter : s.drop 6 = T ++ '"' :: rest := by
            have := List.takeWhile_append_dropWhile (p := fun c => c != '"') (l := s.drop 6)
            rw [hdw, hT, hd, hrest] at this
            exact this.symm
          rw [hsplit, hafter]
        · intro c hc'
          have hc2 : c ∈ (s.drop 6).takeWhile (fun c => c != '"') := by
            rw [hT]; exact hc'
          have h3 := List.mem_takeWhile_imp hc2
          simpa [bne] using h3
      · rw [if_neg hc] at h
        exact absurd h (by simp)
  · rw [if_neg hs] at h
    exact absurd h (by simp)

/-- A value that passes the extractor's check splits into a nonempty part
followed by `.pdf`. -/
theorem endsWith_pdf_decomp (T : List Char) (hend : endsWithL pdfSuffix T = true)
    (hlen : 5 ≤ T.length) : ∃ A, T = A ++ pdfSuffix ∧ A ≠ [] := by
  unfold endsWithL at hend
  have hdec := startsWithL_decomp pdfSuffix.reverse T.reverse hend
  refine ⟨(T.reverse.drop pdfSuffix.reverse.length).reverse, ?_, ?_⟩
  · calc T = T.reverse.reverse := by simp
      _ = (pdfSuffix.reverse ++ T.reverse.drop pdfSuffix.reverse.length).reverse := by
          rw [← hdec]
      _ = (T.reverse.drop pdfSuffix.reverse.length).reverse ++ pdfSuffix := by simp
  · have hlen2 : ((T.reverse.drop pdfSuffix.reverse.length).reverse).length = T.length - 4 := by
      simp [pdfSuffix]
    intro hnil
    rw [hnil] at hlen2
    simp at hlen2
    omega

/-- No `href="` can start strictly inside the value-plus-closing-quote
part of a match: the quote-free prefix and the anchored `.pdf"` tail leave
no room for the six marker characters. -/
theorem specMatchAt_inside_T (A1 rest : List Char) (hq : ∀ c ∈ A1, c ≠ '"') :
    specMatchAt (A1 ++ '.' :: 'p' :: 'd' :: 'f' :: '"' :: rest) = none := by
  have hfalse : startsWithL hrefMark (A1 ++ '.' :: 'p' :: 'd' :: 'f' :: '"' :: rest) = false := by
    rcases A1 with _ | ⟨a, _ | ⟨b, _ | ⟨c, _ | ⟨d, _ | ⟨e, _ | ⟨f, A1'⟩⟩⟩⟩⟩⟩
    · rfl
    · simp only [List.cons_append, List.nil_append, hrefMark, startsWithL,
        show ('r' == '.') = false from rfl, Bool.false_and, Bool.and_false]
    · simp only [List.cons_append, List.nil_append, hrefMark, startsWithL,
        show ('e' == '.') = false from rfl, Bool.false_and, Bool.and_false]
    · simp only [List.cons_append, List.nil_append, hrefMark, startsWithL,
        show ('f' == '.') = false from rfl, Bool.false_and, Bool.and_false]
    · simp only [List.cons_append, List.nil_append, hrefMark, startsWithL,
        show ('=' == '.') = false from rfl, Bool.false_and, Bool.and_false]
    · simp only [List.cons_append, List.nil_append, hrefMark, startsWithL,
        show ('"' == '.') = false from rfl, Bool.false_and, Bool.and_false]
    · have hf : ('"' == f) = false := by
        have hne := hq f (by simp)
        exact beq_eq_false_iff_ne.mpr (fun he => hne he.symm)
      simp only [List.cons_append, hrefMark, startsWithL, hf, Bool.false_and, Bool.and_false]
  unfold specMatchAt
  rw [if_neg (by rw [hfalse]; simp)]

/-- A position whose `specMatchAt` is `none` contributes nothing to the
scan. -/
theorem specScan_cons_none (c : Char) (cs : List Char)
    (h : specMatchAt (c :: cs) = none) : specScan (c :: cs) = specScan cs := by
  rw [specScan, h]
  rfl

/-- The five characters `.pdf"` closing a match admit no new match start. -/
theorem specScan_peel_five (rest : List Char) :
    specScan ('.' :: 'p' :: 'd' :: 'f' :: '"' :: rest) = specScan rest := rfl

/-- The five characters `ref="` following the `h` of a match admit no new
match start. -/
theorem specScan_peel_head (Z : List Char) :
    specScan ('r' :: 'e' :: 'f' :: '=' :: '"' :: Z) = specScan Z := rfl

/-- Scanning the quote-free stem of a matched value up to its closing
quote finds nothing: matches never overlap. -/
theorem specScan_skip_region (A1 : List Char) : ∀ (rest : List Char),
    (∀ c ∈ A1, c ≠ '"') →
    specScan (A1 ++ '.' :: 'p' :: 'd' :: 'f' :: '"' :: rest) = specScan rest := by
  induction A1 with
  | nil =>
    intro rest _
    rw [List.nil_append]
    exact specScan_peel_five rest
  | cons a A1' ih =>
    intro rest hq
    have h0 : specMatchAt (a :: (A1' ++ '.' :: 'p' :: 'd' :: 'f' :: '"' :: rest)) = none := by
      have := specMatchAt_inside_T (a :: A1') rest hq
      rwa [List.cons_append] at this
    rw [List.cons_append, specScan_cons_none a _ h0]
    exact ih rest (fun c hc => hq c (List.mem_cons_of_mem _ hc))

/-- At a successful `matchAt`, the positional scan emits the capture and
sees nothing more until after the closing quote. -/
theorem specScan_match (s T rest : List Char) (h : matchAt s = some (T, rest)) :
    specScan s = T :: specScan rest := by
  obtain ⟨hdecomp, hqf, hend, hlen⟩ := matchAt_some s T rest h
  obtain ⟨A, hTA, hAne⟩ := endsWith_pdf_decomp T hend hlen
  have hAq : ∀ c ∈ A, c ≠ '"' := fun c hc => hqf c (hTA ▸ List.mem_append.mpr (Or.inl hc))
  subst hdecomp
  have h0 : specMatchAt ('h' :: 'r' :: 'e' :: 'f' :: '=' :: '"' :: (T ++ '"' :: rest)) =
      some T := by
    have := specMatchAt_eq (hrefMark ++ (T ++ '"' :: rest))
    rw [h] at this
    exact this
  rw [show hrefMark ++ (T ++ '"' :: rest) =
    'h' :: 'r' :: 'e' :: 'f' :: '=' :: '"' :: (T ++ '"' :: rest) from rfl]
  rw [specScan, h0, specScan_peel_head]
  rw [hTA, List.append_assoc]
  rw [show pdfSuffix ++ '"' :: rest = '.' :: 'p' :: 'd' :: 'f' :: '"' :: rest from rfl]
  rw [specScan_skip_region A rest hAq]
  rfl

/-- The fueled non-overlapping scan of `extractPDFUrls` agrees with the
all-positions spec scan. -/
theorem extractAux_eq_specScan : ∀ (n : Nat) (s : List Char),
    s.length ≤ n → extractAux n s = specScan s := by
  intro n
  induction n with
  | zero =>
    intro s hs
    have hnil : s = [] := List.eq_nil_of_length_eq_zero (Nat.le_zero.mp hs)
    subst hnil
    rfl
  | succ n ih =>
    intro s hs
    cases s with
    | nil => rfl
    | cons c cs =>
      rw [extractAux]
      cases hm : matchAt (c :: cs) with
      | none =>
        have hnone : specMatchAt (c :: cs) = none := by
          rw [specMatchAt_eq, hm]
          rfl
        rw [specScan_cons_none c cs hnone]
        exact ih cs (by simpa using Nat.le_of_succ_le_succ hs)
      | some pr =>
        obtain ⟨T, rest⟩ := pr
        rw [specScan_match (c :: cs) T rest hm]
        show T :: extractAux n rest = T :: specScan rest
        congr 1
        apply ih
        have hdecomp := (matchAt_some (c :: cs) T rest hm).1
        have hlen : (c :: cs).length = hrefMark.length + (T.length + (rest.length + 1)) := by
          rw [hdecomp]
          simp
        simp only [hrefMark, List.length_cons, List.length_nil] at hlen
        simp only [List.length_cons] at hs
        omega

/-- C9 as amended.  The extractor returns, in order of appearance, exactly
the values of `href="..."`-shaped substrings whose quote-free value ends
in `.pdf` with at least one character before the extension (examining
every position of the text — matches cannot overlap); on the spec's own
example it keeps `x.pdf` and drops `y.txt`. -/
theorem extractPDFUrls_eq_spec (input : String) :
    extractPDFUrls input = (specScan input.data).map (fun l => ⟨l⟩) ∧
    extractPDFUrls "<a href=\"x.pdf\"><a href=\"y.txt\">" = ["x.pdf"] := by
  refine ⟨?_, by decide⟩
  unfold extractPDFUrls
  rw [extractAux_eq_specScan input.data.length input.data (le_refl _)]

/-- Counterexample to C9 as stated: the page text `<a href=".pdf">`
contains an `href="..."`-shaped substring whose value `.pdf` ends in the
target extension, yet the extractor (whose regex demands `[^"]+` before
`\.pdf`) returns nothing. -/
theorem extractPDFUrls_misses_bare_extension :
    "<a href=\".pdf\">".data =
      ['<', 'a', ' '] ++ hrefMark ++ (['.', 'p', 'd', 'f'] ++ '"' :: ['>']) ∧
    endsWithL pdfSuffix ['.', 'p', 'd', 'f'] = true ∧
    extractPDFUrls "<a href=\".pdf\">" = [] :=
  ⟨by decide, by decide, by decide⟩
